import Mathlib

/-!
Verification of the MinIO distributed-listing slice: the endpoint-ellipses
layout planner (cmd/endpoint-ellipses.go) and the metacache listing engine
(cmd/metacache-server-pool.go), shallowly embedded as executable Lean
definitions with theorems about the claimed properties.
-/

namespace Minio

/-- Modelled from the spec: one version inside a decoded object manifest
("xlmeta"); versions carry a modification time (nanoseconds, here an
integer), and only the modification time and the version count matter for
the merge tie-break. -/
structure xlMetaVersion where
  modtime : Int
  deriving DecidableEq, Repr

/-- Modelled from the spec: a decoded object manifest, a list of versions
ordered newest first. -/
structure xlMetaV2 where
  versions : List xlMetaVersion
  deriving DecidableEq, Repr

/-- Modelled from the spec: latest version's modification time of a
manifest (the head of the newest-first version list). -/
def xlMetaV2.latestModtime (x : xlMetaV2) : Int :=
  (x.versions.headD ⟨0⟩).modtime

/-- Modelled from the spec: a metacache entry is a name plus opaque
metadata; for an object the metadata decodes (xlmeta) to a manifest, and
`none` models both an absent metadata blob (directory) and a failing
decode. -/
structure metaCacheEntry where
  name : String
  meta : Option xlMetaV2
  deriving DecidableEq, Repr

/-- Modelled from the spec: an entry is a directory when it carries no
object metadata and its name ends with the slash separator. -/
def metaCacheEntry.isDir (e : metaCacheEntry) : Bool :=
  e.meta.isNone && e.name.endsWith "/"

/-- The conflict resolver (the `pick` closure handed to mergeEntryChannels
by both listMerged variants), translated from cmd/metacache-server-pool.go.
Returns true when the existing entry is to be replaced by the other.
The source's modtime guard compares the other manifest's latest modtime
with itself, which is kept verbatim here. -/
def pick (existing other : metaCacheEntry) : Bool :=
  -- Pick object over directory
  if existing.isDir && !other.isDir then true
  else if !existing.isDir && other.isDir then false
  else
    match existing.meta with
    | none => true
    | some eMeta =>
      match other.meta with
      | none => false
      | some oMeta =>
        -- Replace if modtime is newer
        if !(oMeta.latestModtime == oMeta.latestModtime) then
          decide (eMeta.latestModtime < oMeta.latestModtime)
        else
          -- Use NumVersions as a final tiebreaker.
          decide (eMeta.versions.length < oMeta.versions.length)

/-- The tie-break rule the way the specification words it: the other entry
replaces the existing one iff the other is an object and the existing a
directory, or both are objects and the other's latest modtime is strictly
newer, or the latest modtimes are equal and the other has strictly more
versions. -/
def pickClaim (existing other : metaCacheEntry) : Bool :=
  (!other.isDir && existing.isDir) ||
  (match existing.meta, other.meta with
   | some eMeta, some oMeta =>
       (!existing.isDir && !other.isDir) &&
       (decide (eMeta.latestModtime < oMeta.latestModtime) ||
        (oMeta.latestModtime == eMeta.latestModtime &&
         decide (eMeta.versions.length < oMeta.versions.length)))
   | _, _ => false)

/-- An existing object entry with two versions, latest modtime 5. -/
def entryExisting : metaCacheEntry :=
  ⟨"obj", some ⟨[⟨5⟩, ⟨1⟩]⟩⟩

/-- An other object entry with one version, latest modtime 10. -/
def entryOther : metaCacheEntry :=
  ⟨"obj", some ⟨[⟨10⟩]⟩⟩

/-- C1: the conflict resolver diverges from the stated rule. At the input
where the other entry's latest version has a strictly newer modtime (10
versus 5) but fewer versions (1 versus 2), the rule demands replacement,
yet the source keeps the existing entry: its modtime guard compares the
other manifest's latest modtime with itself, so it never fires and the
version-count tie-break decides instead. -/
theorem C1_pick_modtime_self_compare :
    pick entryExisting entryOther = false ∧
    pickClaim entryExisting entryOther = true := by
  decide

/-- An ellipses argument pattern abstracted by the lengths of its patterns'
character sequences (len(p.Seq) in the source); the expansion total of an
argument is the product of these lengths. -/
abbrev argPatternLens := List Nat

/-- The symmetry flag that possibleSetCountsWithSymmetry computes for one
candidate size, translated from cmd/endpoint-ellipses.go: the flag is
assigned anew for every pattern of every argument, so each assignment
overwrites the previous one. -/
def symmetryFlag (ss : Nat) (argPatterns : List argPatternLens) : Bool :=
  argPatterns.foldl (fun sym ap =>
    ap.foldl (fun _ l => if ss < l then l % ss == 0 else ss % l == 0) sym) false

/-- Insert a value into an ascending list. -/
def insSorted (x : Nat) : List Nat → List Nat
  | [] => [x]
  | y :: ys => if x ≤ y then x :: y :: ys else y :: insSorted x ys

/-- Ascending insertion sort, standing in for the source's sort.Slice. -/
def insSort : List Nat → List Nat
  | [] => []
  | x :: xs => insSorted x (insSort xs)

/-- possibleSetCountsWithSymmetry from cmd/endpoint-ellipses.go: keep the
candidate sizes whose symmetry flag ended up set (or every size when the
argPatterns slice is nil, modelled as none), deduplicate them through the
map and return them sorted ascending. -/
def possibleSetCountsWithSymmetry (setCounts : List Nat)
    (argPatterns : Option (List argPatternLens)) : List Nat :=
  insSort ((setCounts.filter (fun ss =>
    symmetryFlag ss (argPatterns.getD []) || argPatterns.isNone)).dedup)

/-- The symmetry condition the claim demands for one expansion length l and
candidate size s: l mod s = 0 when l > s, s mod l = 0 when l <= s. -/
def symCondition (l s : Nat) : Prop :=
  (s < l ∧ l % s = 0) ∨ (l ≤ s ∧ s % l = 0)

instance (l s : Nat) : Decidable (symCondition l s) := by
  unfold symCondition
  infer_instance

/-- The length of the last pattern of the last argument that the symmetry
loop examines, if any. -/
def lastPatternLen (argPatterns : List argPatternLens) : Option Nat :=
  argPatterns.foldl (fun acc ap => ap.foldl (fun _ l => some l) acc) none

/-- C2 counterexample: with candidate size 2 and a single argument whose two
patterns have sequence lengths 3 and 2, size 2 is kept although the
pattern of length 3 violates the symmetry condition (3 mod 2 is not 0):
only the last pattern examined decides, refuting the for-every-pattern
claim. -/
theorem C2_counterexample :
    possibleSetCountsWithSymmetry [2] (some [[3, 2]]) = [2] ∧
    ¬ (∀ l ∈ ([3, 2] : List Nat), symCondition l 2) := by
  decide

/-- Membership in insSorted. -/
theorem mem_insSorted (x a : Nat) (l : List Nat) :
    a ∈ insSorted x l ↔ a = x ∨ a ∈ l := by
  induction l with
  | nil => simp [insSorted]
  | cons y ys ih =>
    by_cases h : x ≤ y
    · simp only [insSorted, if_pos h, List.mem_cons]
    · simp only [insSorted, if_neg h, List.mem_cons, ih]
      tauto

/-- Membership in insSort. -/
theorem mem_insSort (a : Nat) (l : List Nat) : a ∈ insSort l ↔ a ∈ l := by
  induction l with
  | nil => simp [insSort]
  | cons x xs ih => simp [insSort, mem_insSorted, ih]

/-- The folded symmetry flag equals the condition evaluated at the last
pattern examined (false when there is none). -/
theorem symmetryFlag_eq_last (ss : Nat) (aps : List argPatternLens) :
    symmetryFlag ss aps =
      match lastPatternLen aps with
      | none => false
      | some l => if ss < l then l % ss == 0 else ss % l == 0 := by
  unfold symmetryFlag lastPatternLen
  suffices h : ∀ (aps : List argPatternLens) (b : Bool) (o : Option Nat),
      b = (match o with
           | none => false
           | some l => if ss < l then l % ss == 0 else ss % l == 0) →
      (aps.foldl (fun sym ap =>
        ap.foldl (fun _ l => if ss < l then l % ss == 0 else ss % l == 0) sym) b) =
      (match aps.foldl (fun acc ap => ap.foldl (fun _ l => some l) acc) o with
       | none => false
       | some l => if ss < l then l % ss == 0 else ss % l == 0) by
    exact h aps false none rfl
  intro aps
  induction aps with
  | nil => intro b o hb; simpa using hb
  | cons ap rest ih =>
    intro b o hb
    simp only [List.foldl_cons]
    apply ih
    induction ap generalizing b o with
    | nil => simpa using hb
    | cons l ls ihl =>
      simp only [List.foldl_cons]
      apply ihl
      rfl

/-- C2 (amended): possibleSetCountsWithSymmetry keeps a candidate size s iff
s occurs among the input candidates and either no argument patterns were
given (nil slice) or the symmetry condition holds for the last pattern of
the last argument examined by the loop — the per-pattern assignments
overwrite one another, so earlier patterns do not influence the result. -/
theorem C2_symmetry_last_pattern_decides (setCounts : List Nat)
    (argPatterns : Option (List argPatternLens)) (s : Nat) :
    s ∈ possibleSetCountsWithSymmetry setCounts argPatterns ↔
      s ∈ setCounts ∧
        (argPatterns = none ∨
          ∃ l, lastPatternLen (argPatterns.getD []) = some l ∧ symCondition l s) := by
  unfold possibleSetCountsWithSymmetry
  rw [mem_insSort, List.mem_dedup, List.mem_filter]
  constructor
  · rintro ⟨hmem, hcond⟩
    refine ⟨hmem, ?_⟩
    rcases argPatterns with _ | aps
    · exact Or.inl rfl
    · right
      simp only [Option.getD_some, Option.isNone_some, Bool.or_false] at hcond ⊢
      rw [symmetryFlag_eq_last] at hcond
      rcases hlast : lastPatternLen aps with _ | l
      · rw [hlast] at hcond; simp at hcond
      · rw [hlast] at hcond
        dsimp only at hcond
        refine ⟨l, rfl, ?_⟩
        by_cases hlt : s < l
        · rw [if_pos hlt] at hcond
          exact Or.inl ⟨hlt, by simpa using hcond⟩
        · rw [if_neg hlt] at hcond
          exact Or.inr ⟨Nat.le_of_not_lt hlt, by simpa using hcond⟩
  · rintro ⟨hmem, hcond⟩
    refine ⟨hmem, ?_⟩
    rcases argPatterns with _ | aps
    · simp
    · rcases hcond with hnone | ⟨l, hlast, hc⟩
      · exact absurd hnone (by simp)
      · simp only [Option.getD_some] at hlast
        simp only [Option.getD_some, Option.isNone_some, Bool.or_false]
        rw [symmetryFlag_eq_last, hlast]
        dsimp only
        rcases hc with ⟨hlt, hmod⟩ | ⟨hle, hmod⟩
        · rw [if_pos hlt]; simpa using hmod
        · rw [if_neg (Nat.not_lt.mpr hle)]; simpa using hmod

/-- getDivisibleSize from cmd/endpoint-ellipses.go: greatest common divisor
of all the ellipses expansion totals (the source indexes element 0; its
callers guarantee a non-empty list, the empty case here yields 0). -/
def getDivisibleSize : List Nat → Nat
  | [] => 0
  | t :: ts => ts.foldl Nat.gcd t

/-- The selection loop of commonSetDriveCount; the state carries
(prevD, setSize) exactly as the source's mutable locals. -/
def csdcLoop (divisibleSize : Nat) : List Nat → Nat × Nat → Nat × Nat
  | [], st => st
  | cnt :: rest, (prevD, setSize) =>
    if divisibleSize % cnt == 0 then
      let d := divisibleSize / cnt
      if d ≤ prevD then csdcLoop divisibleSize rest (d, cnt)
      else csdcLoop divisibleSize rest (prevD, setSize)
    else csdcLoop divisibleSize rest (prevD, setSize)

/-- commonSetDriveCount from cmd/endpoint-ellipses.go: picks the set size
among the candidates that minimises divisibleSize / setSize; setSize starts
as the zero value. -/
def commonSetDriveCount (divisibleSize : Nat) (setCounts : List Nat) : Nat :=
  if divisibleSize < setCounts.getLastD 0 then divisibleSize
  else (csdcLoop divisibleSize setCounts (divisibleSize / setCounts.headD 0, 0)).2

/-- For a non-empty list, getLastD is getLast. -/
theorem getLastD_of_ne_nil (l : List Nat) (h : l ≠ []) (d : Nat) :
    l.getLastD d = l.getLast h := by
  rw [List.getLastD_eq_getLast? d l, List.getLast?_eq_getLast l h, Option.getD_some]

/-- Running the selection loop over an ascending list of divisors starting
from a bound not below the head's quotient lands on the last element. -/
theorem csdcLoop_run (g : Nat) (l : List Nat) :
    ∀ (c : Nat), (∀ x ∈ c :: l, 0 < x ∧ x ∣ g) →
      (c :: l).Sorted (· ≤ ·) → ∀ p s, g / c ≤ p →
      csdcLoop g (c :: l) (p, s) =
        (g / (c :: l).getLast (List.cons_ne_nil c l),
         (c :: l).getLast (List.cons_ne_nil c l)) := by
  induction l with
  | nil =>
    intro c hx _ p s hp
    obtain ⟨hc, hdvd⟩ := hx c (by simp)
    have hmod : g % c == 0 := by
      simp [Nat.eq_zero_of_dvd_of_lt, (Nat.dvd_iff_mod_eq_zero).mp hdvd]
    simp [csdcLoop, hmod, hp, List.getLast]
  | cons c2 rest ih =>
    intro c hx hsort p s hp
    obtain ⟨hc, hdvd⟩ := hx c (by simp)
    have hmod : g % c == 0 := by
      simp [(Nat.dvd_iff_mod_eq_zero).mp hdvd]
    have hstep : csdcLoop g (c :: c2 :: rest) (p, s) =
        csdcLoop g (c2 :: rest) (g / c, c) := by
      simp [csdcLoop, hmod, hp]
    rw [hstep]
    have hcc2 : c ≤ c2 := by
      rcases List.sorted_cons.mp hsort with ⟨hhead, _⟩
      exact hhead c2 (by simp)
    have hq : g / c2 ≤ g / c := Nat.div_le_div_left hcc2 hc
    have := ih c2 (fun x hxm => hx x (List.mem_cons_of_mem c hxm))
      (List.sorted_cons.mp hsort).2 (g / c) c hq
    rw [this]
    simp [List.getLast]

/-- In an ascending list every element is at most the last one. -/
theorem le_getLast_of_sorted (l : List Nat) (hs : l.Sorted (· ≤ ·))
    (h : l ≠ []) : ∀ x ∈ l, x ≤ l.getLast h := by
  induction l with
  | nil => intro x hx; cases hx
  | cons c rest ih =>
    intro x hx
    rcases List.sorted_cons.mp hs with ⟨hhead, hrest⟩
    rcases List.mem_cons.mp hx with rfl | hmem
    · rcases rest with _ | ⟨c2, rest2⟩
      · simp [List.getLast]
      · have : (c2 :: rest2).getLast (List.cons_ne_nil c2 rest2) ∈ c2 :: rest2 :=
          List.getLast_mem _
        calc x ≤ (c2 :: rest2).getLast (List.cons_ne_nil c2 rest2) := hhead _ this
          _ = (x :: c2 :: rest2).getLast (List.cons_ne_nil x (c2 :: rest2)) := by
            simp [List.getLast]
    · rcases rest with _ | ⟨c2, rest2⟩
      · cases hmem
      · have := ih hrest (List.cons_ne_nil c2 rest2) x hmem
        calc x ≤ (c2 :: rest2).getLast (List.cons_ne_nil c2 rest2) := this
          _ = (c :: c2 :: rest2).getLast (List.cons_ne_nil c (c2 :: rest2)) := by
            simp [List.getLast]

/-- C6: over a non-empty ascending list of candidate set sizes, each a
positive divisor of the common size g, commonSetDriveCount returns the last
(largest) candidate, which minimises g / s over all candidates; equal
quotients are resolved toward the larger candidate because the last one is
returned. -/
theorem C6_commonSetDriveCount_largest (g : Nat) (setCounts : List Nat)
    (hne : setCounts ≠ []) (hsort : setCounts.Sorted (· ≤ ·))
    (hdvd : ∀ c ∈ setCounts, 0 < c ∧ c ∣ g) (hg : 0 < g) :
    commonSetDriveCount g setCounts = setCounts.getLast hne ∧
      ∀ c ∈ setCounts, g / setCounts.getLast hne ≤ g / c := by
  have hlast_mem : setCounts.getLast hne ∈ setCounts := List.getLast_mem hne
  obtain ⟨hlast_pos, hlast_dvd⟩ := hdvd _ hlast_mem
  have hlast_le : setCounts.getLast hne ≤ g := Nat.le_of_dvd hg hlast_dvd
  constructor
  · unfold commonSetDriveCount
    rw [getLastD_of_ne_nil setCounts hne 0, if_neg (Nat.not_lt.mpr hlast_le)]
    obtain ⟨c, rest, rfl⟩ := List.exists_cons_of_ne_nil hne
    rw [csdcLoop_run g rest c hdvd hsort (g / (c :: rest).headD 0) 0 (by simp)]
  · intro c hc
    obtain ⟨hcpos, _⟩ := hdvd c hc
    exact Nat.div_le_div_left (le_getLast_of_sorted setCounts hsort hne c hc) hcpos

/-- C6 witness: with common size 12 and candidates [2, 3, 4, 6] the chosen
set size is 6 and 12 / 6 is minimal among the candidates. -/
theorem C6_commonSetDriveCount_largest_witness :
    commonSetDriveCount 12 [2, 3, 4, 6] = [2, 3, 4, 6].getLast (by decide) ∧
      ∀ c ∈ [2, 3, 4, 6], 12 / [2, 3, 4, 6].getLast (by decide) ≤ 12 / c :=
  C6_commonSetDriveCount_largest 12 [2, 3, 4, 6] (by decide)
    (by decide) (by decide) (by decide)

/-- The supported erasure set sizes, from cmd/endpoint-ellipses.go. -/
def setSizes : List Nat := [2, 3, 4, 5, 6, 7, 8, 9, 10, 11, 12, 13, 14, 15, 16]

/-- isValidSetSize from cmd/endpoint-ellipses.go: the count lies between the
first and the last supported size. -/
def isValidSetSize (count : Nat) : Bool :=
  decide (setSizes.headD 0 ≤ count) && decide (count ≤ setSizes.getLastD 0)

/-- The possibleSetCounts closure inside getSetIndexes: the supported sizes
dividing the given size, in ascending order. -/
def possibleSetCounts (setSize : Nat) : List Nat :=
  setSizes.filter (fun s => setSize % s == 0)

/-- The error kinds getSetIndexes can produce. -/
inductive SetIndexErr where
  | invalidArgument
  | invalidNumberOfEndpoints
  | invalidErasureSetSize
  deriving DecidableEq, Repr

/-- The set-size selection inside getSetIndexes, translated from
cmd/endpoint-ellipses.go: a positive custom drive count must occur among
the candidates, otherwise the symmetric candidates are computed and handed
to commonSetDriveCount. -/
def chooseSetSize (commonSize custom : Nat) (setCounts : List Nat)
    (argPatterns : Option (List argPatternLens)) : Except SetIndexErr Nat :=
  if 0 < custom then
    if setCounts.contains custom then Except.ok custom
    else Except.error SetIndexErr.invalidErasureSetSize
  else
    let sc := possibleSetCountsWithSymmetry setCounts argPatterns
    if sc.isEmpty then Except.error SetIndexErr.invalidNumberOfEndpoints
    else Except.ok (commonSetDriveCount commonSize sc)

/-- getSetIndexes from cmd/endpoint-ellipses.go: validate the totals, take
the gcd, compute the candidate sizes, choose the set size and lay out, per
argument, one entry of value setSize for every full set it contributes. -/
def getSetIndexes (args : List String) (totalSizes : List Nat)
    (customSetDriveCount : Nat) (argPatterns : Option (List argPatternLens)) :
    Except SetIndexErr (List (List Nat)) :=
  if totalSizes.length = 0 ∨ args.length = 0 then
    Except.error SetIndexErr.invalidArgument
  else if totalSizes.any (fun t =>
      decide (t < setSizes.headD 0) || decide (t < customSetDriveCount)) then
    Except.error SetIndexErr.invalidNumberOfEndpoints
  else
    let commonSize := getDivisibleSize totalSizes
    let setCounts := possibleSetCounts commonSize
    if setCounts.isEmpty then Except.error SetIndexErr.invalidNumberOfEndpoints
    else
      match chooseSetSize commonSize customSetDriveCount setCounts argPatterns with
      | Except.error e => Except.error e
      | Except.ok setSize =>
        if isValidSetSize setSize then
          Except.ok (totalSizes.map (fun t => List.replicate (t / setSize) setSize))
        else Except.error SetIndexErr.invalidNumberOfEndpoints

/-- C7 counterexample: with one argument of total 16 and the positive
override 20, the override is not among the candidate sizes, yet the call
fails with the invalid-number-of-endpoints error raised by the guard
totalSize < customSetDriveCount, not with the invalid-erasure-set-size
error the claim demands. -/
theorem C7_counterexample :
    getSetIndexes ["a"] [16] 20 none =
      Except.error SetIndexErr.invalidNumberOfEndpoints ∧
    (0 < 20 ∧ 20 ∉ possibleSetCounts (getDivisibleSize [16])) ∧
    (Except.error SetIndexErr.invalidNumberOfEndpoints :
        Except SetIndexErr (List (List Nat))) ≠
      Except.error SetIndexErr.invalidErasureSetSize := by
  refine ⟨by rfl, by decide, ?_⟩
  intro h
  injection h with h2
  cases h2

/-- The gcd fold divides its seed and every element. -/
theorem foldl_gcd_dvd (l : List Nat) :
    ∀ a : Nat, (l.foldl Nat.gcd a) ∣ a ∧ ∀ x ∈ l, (l.foldl Nat.gcd a) ∣ x := by
  induction l with
  | nil => intro a; simp
  | cons b rest ih =>
    intro a
    simp only [List.foldl_cons]
    obtain ⟨hseed, hall⟩ := ih (Nat.gcd a b)
    refine ⟨hseed.trans (Nat.gcd_dvd_left a b), ?_⟩
    intro x hx
    rcases List.mem_cons.mp hx with rfl | hmem
    · exact hseed.trans (Nat.gcd_dvd_right a x)
    · exact hall x hmem

/-- getDivisibleSize divides every total. -/
theorem getDivisibleSize_dvd (totals : List Nat) :
    ∀ t ∈ totals, getDivisibleSize totals ∣ t := by
  rcases totals with _ | ⟨a, rest⟩
  · intro t ht; cases ht
  · intro t ht
    rcases List.mem_cons.mp ht with rfl | hmem
    · exact (foldl_gcd_dvd rest t).1
    · exact (foldl_gcd_dvd rest a).2 t hmem

/-- Candidate sizes are supported sizes dividing the common size. -/
theorem mem_possibleSetCounts {s g : Nat} (h : s ∈ possibleSetCounts g) :
    s ∈ setSizes ∧ g % s = 0 := by
  obtain ⟨hmem, hmod⟩ := List.mem_filter.mp h
  exact ⟨hmem, by simpa using hmod⟩

/-- Every supported size lies between 2 and 16. -/
theorem setSizes_bounds : ∀ s ∈ setSizes, 2 ≤ s ∧ s ≤ 16 := by decide

/-- C7 (amended): for valid non-empty inputs whose totals are all at least
2 and a positive custom drive count: if the override occurs among the
candidate sizes (the supported sizes dividing the gcd of the totals) it is
chosen as the set size; if it does not and the candidate list is non-empty
and no total is below the override, getSetIndexes fails with the
invalid-erasure-set-size error (when a total is below the override, or no
supported size divides the gcd, the call instead fails earlier with the
invalid-number-of-endpoints error). -/
theorem C7_custom_drive_count (args : List String) (totals : List Nat)
    (custom : Nat) (aps : Option (List argPatternLens))
    (hargs : args ≠ []) (htotals : totals ≠ []) (ht : ∀ t ∈ totals, 2 ≤ t)
    (hc : 0 < custom) :
    (custom ∈ possibleSetCounts (getDivisibleSize totals) →
      getSetIndexes args totals custom aps =
        Except.ok (totals.map (fun t => List.replicate (t / custom) custom))) ∧
    (custom ∉ possibleSetCounts (getDivisibleSize totals) →
      possibleSetCounts (getDivisibleSize totals) ≠ [] →
      (∀ t ∈ totals, custom ≤ t) →
      getSetIndexes args totals custom aps =
        Except.error SetIndexErr.invalidErasureSetSize) := by
  constructor
  · intro hmem
    obtain ⟨hsizes, hmod⟩ := mem_possibleSetCounts hmem
    have hdvd : custom ∣ getDivisibleSize totals :=
      (Nat.dvd_iff_mod_eq_zero).mpr hmod
    have hcle : ∀ t ∈ totals, custom ≤ t := by
      intro t htm
      have hgt : getDivisibleSize totals ∣ t := getDivisibleSize_dvd totals t htm
      have htpos : 0 < t := lt_of_lt_of_le (by decide) (ht t htm)
      have hgpos : 0 < getDivisibleSize totals := by
        rcases Nat.eq_zero_or_pos (getDivisibleSize totals) with hz | hpos
        · rw [hz] at hgt
          exact absurd (Nat.eq_zero_of_zero_dvd hgt) (Nat.pos_iff_ne_zero.mp htpos)
        · exact hpos
      exact (Nat.le_of_dvd hgpos hdvd).trans (Nat.le_of_dvd htpos hgt)
    have hguard : totals.any (fun t =>
        decide (t < setSizes.headD 0) || decide (t < custom)) = false := by
      rw [List.any_eq_false]
      intro t htm
      simp only [Bool.or_eq_true, decide_eq_true_eq, not_or]
      have h2t := ht t htm
      constructor
      · simp only [setSizes, List.headD_cons]
        omega
      · exact Nat.not_lt.mpr (hcle t htm)
    have hlen : ¬ (totals.length = 0 ∨ args.length = 0) := by
      simp [List.length_eq_zero, htotals, hargs]
    have hcontains : (possibleSetCounts (getDivisibleSize totals)).contains custom := by
      exact List.elem_eq_true_of_mem hmem
    have hnotempty : (possibleSetCounts (getDivisibleSize totals)).isEmpty = false := by
      rw [List.isEmpty_eq_false_iff_exists_mem]
      exact ⟨custom, hmem⟩
    have hvalid : isValidSetSize custom = true := by
      obtain ⟨h2, h16⟩ := setSizes_bounds custom hsizes
      simp only [isValidSetSize, setSizes, List.headD_cons, Bool.and_eq_true,
        decide_eq_true_eq]
      constructor
      · exact h2
      · simpa using h16
    unfold getSetIndexes
    rw [if_neg hlen, if_neg (by rw [hguard]; exact Bool.false_ne_true)]
    simp [chooseSetSize, hnotempty, hcontains, hc, hvalid, hmem]
  · intro hnmem hne hcle
    have hguard : totals.any (fun t =>
        decide (t < setSizes.headD 0) || decide (t < custom)) = false := by
      rw [List.any_eq_false]
      intro t htm
      simp only [Bool.or_eq_true, decide_eq_true_eq, not_or]
      have h2t := ht t htm
      exact ⟨by simp only [setSizes, List.headD_cons]; omega,
        Nat.not_lt.mpr (hcle t htm)⟩
    have hlen : ¬ (totals.length = 0 ∨ args.length = 0) := by
      simp [List.length_eq_zero, htotals, hargs]
    have hncontains : (possibleSetCounts (getDivisibleSize totals)).contains custom = false := by
      rcases hcase : (possibleSetCounts (getDivisibleSize totals)).contains custom with _ | _
      · rfl
      · exact absurd (List.mem_of_elem_eq_true hcase) hnmem
    have hnotempty : (possibleSetCounts (getDivisibleSize totals)).isEmpty = false := by
      rcases hcase : (possibleSetCounts (getDivisibleSize totals)).isEmpty with _ | _
      · rfl
      · exact absurd (List.isEmpty_iff.mp hcase) hne
    unfold getSetIndexes
    rw [if_neg hlen, if_neg (by rw [hguard]; exact Bool.false_ne_true)]
    simp [chooseSetSize, hnotempty, hncontains, hc, hnmem]

/-- C7 witness: with one argument of total 16 and override 8 (a candidate:
8 divides 16) the planner chooses set size 8 and lays out two sets. -/
theorem C7_custom_drive_count_witness :
    getSetIndexes ["a"] [16] 8 none =
      Except.ok ([16].map (fun t => List.replicate (t / 8) 8)) :=
  (C7_custom_drive_count ["a"] [16] 8 none (by decide) (by decide)
    (by decide) (by decide)).1 (by decide)

/-- The slicing loop of endpointSet.Get: each value n of the flattened
setIndexes yields the slice endpoints[k : n+k], k being the running
offset. -/
def epGetAux (endpoints : List String) : List Nat → Nat → List (List String)
  | [], _ => []
  | n :: rest, k => (endpoints.drop k).take n :: epGetAux endpoints rest (k + n)

/-- endpointSet.Get from cmd/endpoint-ellipses.go: slice the flat expanded
endpoint list into consecutive chunks of the setIndexes sizes (the nested
loop visits the per-argument rows in order, hence the flatten). -/
def endpointSetGet (endpoints : List String) (setIndexes : List (List Nat)) :
    List (List String) :=
  epGetAux endpoints setIndexes.flatten 0

/-- Concatenating the produced chunks yields a contiguous slice of the
endpoint list. -/
theorem epGetAux_flatten (ep : List String) :
    ∀ (ns : List Nat) (k : Nat),
      (epGetAux ep ns k).flatten = (ep.drop k).take ns.sum := by
  intro ns
  induction ns with
  | nil => intro k; simp [epGetAux]
  | cons n rest ih =>
    intro k
    simp only [epGetAux, List.flatten_cons, ih (k + n), List.sum_cons]
    rw [List.take_add, List.drop_drop]

/-- When the chunk sizes all equal S and they fit into the endpoint list,
every produced chunk has length S. -/
theorem epGetAux_sizes (ep : List String) (S : Nat) :
    ∀ (ns : List Nat) (k : Nat), (∀ n ∈ ns, n = S) → k + ns.sum ≤ ep.length →
      ∀ c ∈ epGetAux ep ns k, c.length = S := by
  intro ns
  induction ns with
  | nil => intro k _ _ c hc; cases hc
  | cons n rest ih =>
    intro k hall hfit c hc
    have hn : n = S := hall n (by simp)
    rcases List.mem_cons.mp hc with rfl | hmem
    · rw [List.length_take, List.length_drop, hn]
      have hle : S ≤ ep.length - k := by
        simp only [List.sum_cons, hn] at hfit
        omega
      exact Nat.min_eq_left hle
    · exact ih (k + n) (fun m hm => hall m (List.mem_cons_of_mem n hm))
        (by simp only [List.sum_cons] at hfit; omega) c hmem

/-- The loop state's setSize component ends as its start value or as a list
element. -/
theorem csdcLoop_mem (g : Nat) :
    ∀ (l : List Nat) (p s : Nat),
      (csdcLoop g l (p, s)).2 = s ∨ (csdcLoop g l (p, s)).2 ∈ l := by
  intro l
  induction l with
  | nil => intro p s; left; rfl
  | cons c rest ih =>
    intro p s
    unfold csdcLoop
    by_cases h1 : (g % c == 0) = true
    · rw [if_pos h1]
      dsimp only
      by_cases h2 : g / c ≤ p
      · rw [if_pos h2]
        rcases ih (g / c) c with h | h
        · right; rw [h]; simp
        · right; exact List.mem_cons_of_mem c h
      · rw [if_neg h2]
        rcases ih p s with h | h
        · left; exact h
        · right; exact List.mem_cons_of_mem c h
    · rw [if_neg h1]
      rcases ih p s with h | h
      · left; exact h
      · right; exact List.mem_cons_of_mem c h

/-- commonSetDriveCount yields the common size itself, the zero start value
or one of the candidates. -/
theorem commonSetDriveCount_cases (g : Nat) (sc : List Nat) :
    commonSetDriveCount g sc = g ∨ commonSetDriveCount g sc = 0 ∨
      commonSetDriveCount g sc ∈ sc := by
  unfold commonSetDriveCount
  split
  · left; rfl
  · rcases csdcLoop_mem g sc (g / sc.headD 0) 0 with h | h
    · right; left; exact h
    · right; right; exact h

/-- The symmetric candidates are a subset of the input candidates. -/
theorem mem_of_mem_psws {x : Nat} {sc : List Nat}
    {aps : Option (List argPatternLens)}
    (h : x ∈ possibleSetCountsWithSymmetry sc aps) : x ∈ sc := by
  unfold possibleSetCountsWithSymmetry at h
  rw [mem_insSort, List.mem_dedup] at h
  exact (List.mem_filter.mp h).1

/-- A successfully chosen set size is the common size, zero, or one of the
candidates. -/
theorem chooseSetSize_ok {g custom : Nat} {sc : List Nat}
    {aps : Option (List argPatternLens)} {S : Nat}
    (h : chooseSetSize g custom sc aps = Except.ok S) :
    S = g ∨ S = 0 ∨ S ∈ sc := by
  unfold chooseSetSize at h
  split at h
  · split at h
    · rename_i hcont
      right; right
      have hSc : custom = S := by injection h
      rw [← hSc]
      exact List.mem_of_elem_eq_true hcont
    · exact Except.noConfusion h
  · dsimp only at h
    split at h
    · exact Except.noConfusion h
    · have hS : commonSetDriveCount g (possibleSetCountsWithSymmetry sc aps) = S := by
        injection h
      rcases commonSetDriveCount_cases g (possibleSetCountsWithSymmetry sc aps) with
        hg | hz | hm
      · left; rw [← hS, hg]
      · right; left; rw [← hS, hz]
      · right; right; rw [← hS]; exact mem_of_mem_psws hm

/-- A valid set size lies between 2 and 16. -/
theorem isValidSetSize_bounds {S : Nat} (h : isValidSetSize S = true) :
    2 ≤ S ∧ S ≤ 16 := by
  unfold isValidSetSize at h
  have h1 : setSizes.headD 0 = 2 := rfl
  have h2 : setSizes.getLastD 0 = 16 := rfl
  rw [h1, h2] at h
  simp only [Bool.and_eq_true, decide_eq_true_eq] at h
  exact h

/-- Every successful getSetIndexes run has one set size S, valid and
dividing every total, and lays out totals[i] / S entries of value S per
argument. -/
theorem getSetIndexes_ok {args : List String} {totals : List Nat}
    {custom : Nat} {aps : Option (List argPatternLens)}
    {setIndexes : List (List Nat)}
    (hok : getSetIndexes args totals custom aps = Except.ok setIndexes) :
    ∃ S, isValidSetSize S = true ∧ (∀ t ∈ totals, S ∣ t) ∧
      setIndexes = totals.map (fun t => List.replicate (t / S) S) := by
  unfold getSetIndexes at hok
  split at hok
  · exact Except.noConfusion hok
  · split at hok
    · exact Except.noConfusion hok
    · dsimp only at hok
      split at hok
      · exact Except.noConfusion hok
      · split at hok
        · exact Except.noConfusion hok
        · rename_i setSize hchoose
          split at hok
          · rename_i hvalid
            refine ⟨setSize, hvalid, ?_, by injection hok; simp_all⟩
            intro t htm
            have hS2 : 2 ≤ setSize := (isValidSetSize_bounds hvalid).1
            have hgdvd : getDivisibleSize totals ∣ t := getDivisibleSize_dvd totals t htm
            rcases chooseSetSize_ok hchoose with hg | hz | hm
            · rw [hg]; exact hgdvd
            · omega
            · obtain ⟨_, hmod⟩ := mem_possibleSetCounts hm
              exact ((Nat.dvd_iff_mod_eq_zero).mpr hmod).trans hgdvd
          · exact Except.noConfusion hok

/-- C8: every successful planner run has one common set size S between 2
and 16 dividing every argument total; with the expanded endpoint list
(whose length is the sum of the totals) every produced erasure set has
exactly S endpoints and their concatenation is exactly the expansion. -/
theorem C8_planner_layout (args : List String) (totals : List Nat)
    (custom : Nat) (aps : Option (List argPatternLens))
    (setIndexes : List (List Nat)) (endpoints : List String)
    (hok : getSetIndexes args totals custom aps = Except.ok setIndexes)
    (hlen : endpoints.length = totals.sum) :
    ∃ S, 2 ≤ S ∧ S ≤ 16 ∧ (∀ t ∈ totals, S ∣ t) ∧
      (∀ s ∈ endpointSetGet endpoints setIndexes, s.length = S) ∧
      (endpointSetGet endpoints setIndexes).flatten = endpoints := by
  obtain ⟨S, hvalid, hdvd, rfl⟩ := getSetIndexes_ok hok
  obtain ⟨hS2, hS16⟩ := isValidSetSize_bounds hvalid
  refine ⟨S, hS2, hS16, hdvd, ?_, ?_⟩
  all_goals
    have hall : ∀ n ∈ (totals.map (fun t => List.replicate (t / S) S)).flatten, n = S := by
      intro n hn
      obtain ⟨row, hrow, hnrow⟩ := List.mem_flatten.mp hn
      obtain ⟨t, _, rfl⟩ := List.mem_map.mp hrow
      exact List.eq_of_mem_replicate hnrow
    have hsum : ((totals.map (fun t => List.replicate (t / S) S)).flatten).sum
        = totals.sum := by
      rw [List.sum_flatten, List.map_map]
      have hcongr : totals.map (List.sum ∘ fun t => List.replicate (t / S) S)
          = totals.map (fun t => t) := by
        apply List.map_congr_left
        intro t htm
        simp only [Function.comp_apply, List.sum_replicate, smul_eq_mul]
        exact Nat.div_mul_cancel (hdvd t htm)
      rw [hcongr]
      simp
  · intro s hs
    exact epGetAux_sizes endpoints S _ 0 hall (by rw [hsum, ← hlen]; omega) s hs
  · unfold endpointSetGet
    rw [epGetAux_flatten, List.drop_zero, hsum, ← hlen, List.take_length]

/-- C8 witness: with one argument of total 4, override 2 and four expanded
endpoints, the planner lays out two sets of two endpoints whose
concatenation is the expansion. -/
theorem C8_planner_layout_witness :
    ∃ S, 2 ≤ S ∧ S ≤ 16 ∧ (∀ t ∈ [4], S ∣ t) ∧
      (∀ s ∈ endpointSetGet ["e1", "e2", "e3", "e4"] [[2, 2]], s.length = S) ∧
      (endpointSetGet ["e1", "e2", "e3", "e4"] [[2, 2]]).flatten
        = ["e1", "e2", "e3", "e4"] :=
  C8_planner_layout ["a"] [4] 2 none [[2, 2]] ["e1", "e2", "e3", "e4"]
    (by rfl) (by rfl)

/-- The listing error kinds relevant to the embedded listPath branches:
nil (noerr), io.EOF, context.Canceled, context.DeadlineExceeded, the
"invalid pool/set" error, errDiskFull and any other error. -/
inductive ListErr where
  | noerr
  | eof
  | canceled
  | deadlineExceeded
  | invalidPoolSet
  | diskFull
  | other
  deriving DecidableEq, Repr

/-- The slice of listPathOptions used by the embedded branches; Pfx stands
for the options' object-name filter (o.Prefix in the source). -/
structure listPathOptions where
  Bucket : String
  Pfx : String
  Marker : String
  Limit : Nat
  ID : String
  pool : Nat
  set : Nat
  Create : Bool
  Transient : Bool
  deriving DecidableEq, Repr

/-- The validation head of listPath (identical in the erasureServerPools
and erasureSingle variants), translated from cmd/metacache-server-pool.go.
checkListObjsArgs is outside this slice; its verdict is the argsErr
parameter (modelled from the spec: invalid options yield an error). The
remainder of listPath is the rest parameter; the early returns never
invoke it. -/
def listPathHead (argsErr : Bool) (o : listPathOptions)
    (rest : Unit → List metaCacheEntry × ListErr) :
    List metaCacheEntry × ListErr :=
  if argsErr then ([], ListErr.other)
  else if o.Marker ≠ "" ∧ o.Pfx ≠ "" ∧ ¬ o.Marker.startsWith o.Pfx then
    ([], ListErr.eof)
  else if o.Limit = 0 then ([], ListErr.eof)
  else if o.Pfx.startsWith "/" then ([], ListErr.eof)
  else rest ()

/-- C5: when the arguments pass validation and the limit is zero, or marker
and filter are both non-empty with the marker not extending the filter, or
the filter starts with a slash, listPath returns the empty page with io.EOF
— for every possible remainder computation, i.e. without consulting the
metacache manager or scanning any set. -/
theorem C5_listPath_early_eof (o : listPathOptions)
    (rest : Unit → List metaCacheEntry × ListErr)
    (h : o.Limit = 0 ∨
         (o.Marker ≠ "" ∧ o.Pfx ≠ "" ∧ ¬ o.Marker.startsWith o.Pfx) ∨
         o.Pfx.startsWith "/" = true) :
    listPathHead false o rest = ([], ListErr.eof) := by
  unfold listPathHead
  rw [if_neg (by simp)]
  split_ifs with h1 h2 h3
  · rfl
  · rfl
  · rfl
  · exfalso
    rcases h with h | h | h
    · exact h2 h
    · exact h1 h
    · exact h3 h

/-- C5 witness: a zero-limit call answers the empty page with io.EOF even
when the remainder would produce entries. -/
theorem C5_listPath_early_eof_witness :
    listPathHead false ⟨"bucket", "", "", 0, "", 0, 0, false, false⟩
      (fun _ => ([⟨"x", none⟩], ListErr.noerr)) = ([], ListErr.eof) :=
  C5_listPath_early_eof ⟨"bucket", "", "", 0, "", 0, 0, false, false⟩
    (fun _ => ([⟨"x", none⟩], ListErr.noerr)) (Or.inl rfl)

/-- Modelled from the spec: gatherResults drains at most Limit+1 entries
from the merged stream into the page buffer; it reports io.EOF (second
component true) iff the stream was exhausted before more than Limit entries
arrived, and a nil error otherwise. -/
def gatherResults (stream : List metaCacheEntry) (limit : Nat) :
    List metaCacheEntry × Bool :=
  (stream.take (limit + 1), decide (stream.length ≤ limit))

/-- The tail of the raw-list path of listPath, translated from
cmd/metacache-server-pool.go: compute the truncated flag from the gathered
page and the gather error, truncate to Limit, stamp a list ID when the
result is truncated and not transient (third component), and answer nil
when truncated, io.EOF otherwise. -/
def rawListFinish (stream : List metaCacheEntry) (o : listPathOptions) :
    List metaCacheEntry × ListErr × Bool :=
  let gathered := (gatherResults stream o.Limit).1
  let eofFlag := (gatherResults stream o.Limit).2
  let truncated := decide (o.Limit < gathered.length) || !eofFlag
  let page := gathered.take o.Limit
  let stamped := !o.Transient && truncated
  if truncated then (page, ListErr.noerr, stamped)
  else (page, ListErr.eof, stamped)

/-- C4: for a raw-list call with positive Limit, the returned page holds at
most Limit entries; the call is truncated iff more than Limit entries were
gathered or the gather finished without io.EOF, and it answers nil exactly
when truncated and io.EOF otherwise. -/
theorem C4_rawList_truncation (stream : List metaCacheEntry)
    (o : listPathOptions) (h : 0 < o.Limit) :
    (rawListFinish stream o).1.length ≤ o.Limit ∧
    ((rawListFinish stream o).2.1 = ListErr.noerr ↔
      (o.Limit < (gatherResults stream o.Limit).1.length ∨
       (gatherResults stream o.Limit).2 = false)) ∧
    ((rawListFinish stream o).2.1 = ListErr.eof ↔
      ¬ (o.Limit < (gatherResults stream o.Limit).1.length ∨
         (gatherResults stream o.Limit).2 = false)) := by
  have hb : (decide (o.Limit < (gatherResults stream o.Limit).1.length) ||
      !(gatherResults stream o.Limit).2) = true ↔
      (o.Limit < (gatherResults stream o.Limit).1.length ∨
       (gatherResults stream o.Limit).2 = false) := by
    simp
  unfold rawListFinish
  dsimp only
  by_cases hcond : (o.Limit < (gatherResults stream o.Limit).1.length ∨
      (gatherResults stream o.Limit).2 = false)
  · rw [if_pos (hb.mpr hcond)]
    refine ⟨?_, by simp [hcond], by simp [hcond]⟩
    dsimp only
    rw [List.length_take]
    exact min_le_left _ _
  · rw [if_neg (fun hc => hcond (hb.mp hc))]
    refine ⟨?_, by simp [hcond], by simp [hcond]⟩
    dsimp only
    rw [List.length_take]
    exact min_le_left _ _

/-- C4 witness: an exhausted empty stream with Limit 1 yields an empty
page, no truncation and io.EOF. -/
theorem C4_rawList_truncation_witness :
    (rawListFinish [] ⟨"b", "", "", 1, "", 0, 0, false, false⟩).1.length ≤ 1 ∧
    ((rawListFinish [] ⟨"b", "", "", 1, "", 0, 0, false, false⟩).2.1 = ListErr.noerr ↔
      (1 < (gatherResults [] 1).1.length ∨ (gatherResults [] 1).2 = false)) ∧
    ((rawListFinish [] ⟨"b", "", "", 1, "", 0, 0, false, false⟩).2.1 = ListErr.eof ↔
      ¬ (1 < (gatherResults [] 1).1.length ∨ (gatherResults [] 1).2 = false)) :=
  C4_rawList_truncation [] ⟨"b", "", "", 1, "", 0, 0, false, false⟩ (by decide)

/-- Whether an error is in the expected-good list of the resume branch of
listPath (nil, context.Canceled, context.DeadlineExceeded, io.EOF). -/
def isExpectedErr (e : ListErr) : Bool :=
  e == ListErr.noerr || e == ListErr.canceled ||
  e == ListErr.deadlineExceeded || e == ListErr.eof

/-- The resume branch of listPath (erasureServerPools, existing list ID,
non-Create path), translated from cmd/metacache-server-pool.go: the
topology is the list of per-pool set counts; streamMetadataParts is the
stream parameter, consulted only at in-range indices. inl is a direct
reply; inr carries the options the raw-list fallback proceeds with (list ID
cleared, entries truncated away) together with the error that forced the
fallback. -/
def resumeBranch (poolSets : List Nat) (o : listPathOptions)
    (stream : Nat → Nat → List metaCacheEntry × ListErr) :
    (List metaCacheEntry × ListErr) ⊕ (listPathOptions × ListErr) :=
  if o.pool < poolSets.length ∧ o.set < poolSets.getD o.pool 0 then
    let r := stream o.pool o.set
    if r.2 = ListErr.noerr then Sum.inl (r.1, ListErr.noerr)
    else if isExpectedErr r.2 then Sum.inl (r.1, r.2)
    else Sum.inr ({ o with ID := "" }, r.2)
  else
    let o1 : listPathOptions := { o with pool := 0, set := 0 }
    Sum.inr ({ o1 with ID := "" }, ListErr.invalidPoolSet)

/-- C9: when the decoded pool or set index is out of range for the current
topology the stream is never consulted (the result is the same for every
stream function): the resume is abandoned with the invalid pool/set error,
pool and set are reset to 0, the ID is cleared, and the request proceeds to
the raw-list fallback. -/
theorem C9_invalid_pool_set (poolSets : List Nat) (o : listPathOptions)
    (stream : Nat → Nat → List metaCacheEntry × ListErr)
    (h : ¬ (o.pool < poolSets.length ∧ o.set < poolSets.getD o.pool 0)) :
    resumeBranch poolSets o stream =
      Sum.inr ({ o with pool := 0, set := 0, ID := "" },
        ListErr.invalidPoolSet) := by
  unfold resumeBranch
  rw [if_neg h]

/-- C9 witness: with an empty topology and resume indices pool 2, set 1,
the branch falls back to raw listing with reset indices and a cleared ID,
regardless of a stream that would deliver entries. -/
theorem C9_invalid_pool_set_witness :
    resumeBranch [] ⟨"b", "", "", 10, "id", 2, 1, false, false⟩
        (fun _ _ => ([⟨"x", none⟩], ListErr.noerr)) =
      Sum.inr (⟨"b", "", "", 10, "", 0, 0, false, false⟩,
        ListErr.invalidPoolSet) :=
  C9_invalid_pool_set [] ⟨"b", "", "", 10, "id", 2, 1, false, false⟩
    (fun _ _ => ([⟨"x", none⟩], ListErr.noerr)) (by decide)

/-- The head of listAndSave (erasureServerPools), translated from
cmd/metacache-server-pool.go: the available-pool lookup
(getAvailablePoolIdx, outside this slice) is the availIdx parameter,
negative when no pool has capacity. inl is the early return: the mutated
options, the empty entry list and errDiskFull; inr carries the options the
save continues with. -/
def listAndSaveGuard (availIdx : Int) (o : listPathOptions) :
    (listPathOptions × List metaCacheEntry × ListErr) ⊕ listPathOptions :=
  if availIdx < 0 then
    Sum.inl ({ o with pool := 0, Create := false, ID := "", Transient := true },
      [], ListErr.diskFull)
  else
    Sum.inr { o with pool := availIdx.toNat }

/-- C10: when no pool has available capacity (negative index), listAndSave
returns the empty entry list with errDiskFull and mutates the options to a
transient, non-persisting state: Transient true, Create false, ID empty
(and pool reset to 0), so no metacache is written. -/
theorem C10_listAndSave_disk_full (availIdx : Int) (o : listPathOptions)
    (h : availIdx < 0) :
    listAndSaveGuard availIdx o =
      Sum.inl ({ o with pool := 0, Create := false, ID := "", Transient := true },
        [], ListErr.diskFull) := by
  unfold listAndSaveGuard
  rw [if_pos h]

/-- C10 witness: the guard at available-pool index -1. -/
theorem C10_listAndSave_disk_full_witness :
    listAndSaveGuard (-1) ⟨"b", "p", "", 10, "id", 3, 4, true, false⟩ =
      Sum.inl (⟨"b", "p", "", 10, "", 0, 4, false, true⟩,
        [], ListErr.diskFull) :=
  C10_listAndSave_disk_full (-1) ⟨"b", "p", "", 10, "id", 3, 4, true, false⟩
    (by decide)

/-- The lifecycle actions evalActionFromLifecycle can yield (the listing
filter only distinguishes the four delete verdicts from the rest). -/
inductive lifecycleAction where
  | NoneAction
  | DeleteAction
  | DeleteVersionAction
  | DeleteRestoredAction
  | DeleteRestoredVersionAction
  | TransitionAction
  | TransitionVersionAction
  deriving DecidableEq, Repr

/-- Modelled from the spec: the object info built from a decoded entry
(fileInfo followed by ToObjectInfo); only its identity matters here. -/
structure ObjectInfo where
  name : String
  deriving DecidableEq, Repr

/-- One enqueueByDays call on the global expiry state: the object, whether
it is a restored-object expiration, and whether the rule applies on a
version (the action equalled the version variant). -/
structure expiryTask where
  obj : ObjectInfo
  restoredObject : Bool
  applyOnVersion : Bool
  deriving DecidableEq, Repr

/-- applyBucketActions from cmd/metacache-server-pool.go as sequential list
processing: the input and output channels become lists; the entry decoding
(fileInfo + ToObjectInfo, outside this slice) is the decode parameter, none
meaning a failing decode after which the entry is skipped; the lifecycle
evaluation (evalActionFromLifecycle) is the evalLc parameter, and
hasLifecycle mirrors o.Lifecycle being non-nil. Returns the emitted
entries and the enqueued expiry tasks in input order. -/
def applyBucketActions (hasLifecycle : Bool)
    (decode : metaCacheEntry → Option ObjectInfo)
    (evalLc : ObjectInfo → lifecycleAction) :
    List metaCacheEntry → List metaCacheEntry × List expiryTask
  | [] => ([], [])
  | e :: rest =>
    let r := applyBucketActions hasLifecycle decode evalLc rest
    match decode e with
    | none => r
    | some oi =>
      if hasLifecycle then
        match evalLc oi with
        | lifecycleAction.DeleteVersionAction => (r.1, ⟨oi, false, true⟩ :: r.2)
        | lifecycleAction.DeleteAction => (r.1, ⟨oi, false, false⟩ :: r.2)
        | lifecycleAction.DeleteRestoredVersionAction =>
          (r.1, ⟨oi, true, true⟩ :: r.2)
        | lifecycleAction.DeleteRestoredAction => (r.1, ⟨oi, true, false⟩ :: r.2)
        | _ => (e :: r.1, r.2)
      else (e :: r.1, r.2)

/-- The lifecycle verdicts that drop an entry, as the claim lists them. -/
def lcDrops (a : lifecycleAction) : Bool :=
  a == lifecycleAction.DeleteAction || a == lifecycleAction.DeleteVersionAction ||
  a == lifecycleAction.DeleteRestoredAction ||
  a == lifecycleAction.DeleteRestoredVersionAction

/-- The single expiry task the claim expects for a dropped entry: the
restore variants enqueue a restore expiration, the version variants apply
on the version. -/
def expectedTask (oi : ObjectInfo) (a : lifecycleAction) : Option expiryTask :=
  match a with
  | lifecycleAction.DeleteVersionAction => some ⟨oi, false, true⟩
  | lifecycleAction.DeleteAction => some ⟨oi, false, false⟩
  | lifecycleAction.DeleteRestoredVersionAction => some ⟨oi, true, true⟩
  | lifecycleAction.DeleteRestoredAction => some ⟨oi, true, false⟩
  | _ => none

/-- C3: with a lifecycle configured, the emitted entries are exactly the
decodable entries whose verdict is not a delete verdict (each dropped entry
is absent from the output), and the enqueued expiry tasks are exactly one
task per dropped entry occurrence — a plain expiration for Delete and
DeleteVersion, a restore expiration for DeleteRestored and
DeleteRestoredVersion — in stream order. -/
theorem C3_lifecycle_filter (decode : metaCacheEntry → Option ObjectInfo)
    (evalLc : ObjectInfo → lifecycleAction) (l : List metaCacheEntry) :
    (applyBucketActions true decode evalLc l).1 =
      l.filter (fun e => match decode e with
        | none => false
        | some oi => !(lcDrops (evalLc oi))) ∧
    (applyBucketActions true decode evalLc l).2 =
      l.filterMap (fun e => (decode e).bind (fun oi => expectedTask oi (evalLc oi))) := by
  induction l with
  | nil => exact ⟨rfl, rfl⟩
  | cons e rest ih =>
    obtain ⟨ih1, ih2⟩ := ih
    rcases hd : decode e with _ | oi
    · constructor
      · simp [applyBucketActions, hd, List.filter_cons, ih1]
      · simp [applyBucketActions, hd, List.filterMap_cons, ih2]
    · rcases ha : evalLc oi with _ | _ | _ | _ | _ | _ | _ <;>
        exact ⟨by simp [applyBucketActions, hd, ha, List.filter_cons, ih1,
            lcDrops],
          by simp [applyBucketActions, hd, ha, List.filterMap_cons, ih2,
            expectedTask]⟩

end Minio
